import Mathlib

/-!
Verification development for the survTMB approximate-integral and
parameter-transform core (snva-utils.h / snva-utils.cpp).

Real-valued C++ computations (`double` and the CppAD `AD` types) are embedded
as functions on the real numbers; `pnorm`, `dnorm` and `pnorm_log` are the
standard normal CDF, density and log-CDF that the Rmath/TMB externals compute.
The quadrature-rule cache is embedded as an explicit state machine.
-/

open MeasureTheory Set

namespace SurvTMB

/-! ## Constants -/

/-- Machine epsilon for IEEE double, the value of
`std::numeric_limits<double>::epsilon()` used in the guarded denominators. -/
noncomputable def machineEps : ℝ := ((2 : ℝ) ^ (52 : ℕ))⁻¹

lemma machineEps_pos : 0 < machineEps := by
  unfold machineEps
  positivity

/-- The C constant `M_2_SQRTPI`, that is 2 over the square root of pi. -/
noncomputable def M_2_SQRTPI : ℝ := 2 / Real.sqrt Real.pi

/-- The C constant `M_SQRT2`. -/
noncomputable def M_SQRT2 : ℝ := Real.sqrt 2

/-- The C constant `M_2_PI`, that is 2 over pi. -/
noncomputable def M_2_PI : ℝ := 2 / Real.pi

/-! ## Standard normal density and CDF (the Rmath externals) -/

/-- Standard normal density: what `dnorm(z, 0, 1)` / `Rf_dnorm4(z, 0, 1, 0)`
compute, embedded as the exact real function. -/
noncomputable def dnorm (z : ℝ) : ℝ :=
  (Real.sqrt (2 * Real.pi))⁻¹ * Real.exp (-z ^ 2 / 2)

/-- Standard normal CDF: what `pnorm(z)` / `Rf_pnorm5(z, 0, 1, 1, 0)` compute,
embedded as the exact real function. -/
noncomputable def pnorm (z : ℝ) : ℝ := ∫ t in Iic z, dnorm t

/-- Logarithm of the standard normal CDF: what `pnorm_log(z)` /
`Rf_pnorm5(z, 0, 1, 1, 1)` compute. -/
noncomputable def pnorm_log (z : ℝ) : ℝ := Real.log (pnorm z)

lemma dnorm_pos (z : ℝ) : 0 < dnorm z := by
  unfold dnorm
  have h2pi : (0 : ℝ) < 2 * Real.pi := by positivity
  positivity

lemma dnorm_continuous : Continuous dnorm := by
  unfold dnorm
  fun_prop

lemma dnorm_neg (z : ℝ) : dnorm (-z) = dnorm z := by
  simp [dnorm, neg_sq]

lemma integrable_dnorm : Integrable dnorm := by
  have h := integrable_exp_neg_mul_sq (b := (1 : ℝ) / 2) (by norm_num)
  have h2 : Integrable fun x : ℝ => Real.exp (-x ^ 2 / 2) := by
    have he : (fun x : ℝ => Real.exp (-x ^ 2 / 2)) =
        fun x : ℝ => Real.exp (-(1 / 2) * x ^ 2) := by
      funext x; congr 1; ring
    rw [he]; exact h
  exact h2.const_mul (Real.sqrt (2 * Real.pi))⁻¹

lemma abs_le_exp_sq_quarter (t : ℝ) : |t| ≤ Real.exp (t ^ 2 / 4) := by
  have h1 : |t| ≤ 1 + t ^ 2 / 4 := by
    nlinarith [sq_nonneg (|t| - 2), sq_abs t, abs_nonneg t]
  have h2 : t ^ 2 / 4 + 1 ≤ Real.exp (t ^ 2 / 4) := Real.add_one_le_exp _
  linarith

lemma integrable_id_mul_dnorm : Integrable (fun t : ℝ => t * dnorm t) := by
  have hg : Integrable fun t : ℝ =>
      (Real.sqrt (2 * Real.pi))⁻¹ * Real.exp (-(1 / 4) * t ^ 2) :=
    (integrable_exp_neg_mul_sq (by norm_num)).const_mul _
  refine hg.mono ((continuous_id.mul dnorm_continuous).aestronglyMeasurable)
    (Filter.Eventually.of_forall fun t => ?_)
  have hc : (0 : ℝ) < (Real.sqrt (2 * Real.pi))⁻¹ := by positivity
  have h1 : |t * dnorm t| = |t| * dnorm t := by
    rw [abs_mul, abs_of_pos (dnorm_pos t)]
  have h2 : |t| * dnorm t ≤
      (Real.sqrt (2 * Real.pi))⁻¹ * Real.exp (-(1 / 4) * t ^ 2) := by
    have hb := abs_le_exp_sq_quarter t
    have : |t| * dnorm t ≤ Real.exp (t ^ 2 / 4) * dnorm t :=
      mul_le_mul_of_nonneg_right hb (dnorm_pos t).le
    calc |t| * dnorm t ≤ Real.exp (t ^ 2 / 4) * dnorm t := this
      _ = (Real.sqrt (2 * Real.pi))⁻¹ * Real.exp (t ^ 2 / 4 + -t ^ 2 / 2) := by
          rw [dnorm, Real.exp_add]; ring
      _ = (Real.sqrt (2 * Real.pi))⁻¹ * Real.exp (-(1 / 4) * t ^ 2) := by
          congr 2; ring
  rw [Real.norm_eq_abs, Real.norm_eq_abs, h1]
  have hgpos : 0 < (Real.sqrt (2 * Real.pi))⁻¹ * Real.exp (-(1 / 4) * t ^ 2) := by
    positivity
  rw [abs_of_pos hgpos]
  exact h2

lemma hasDerivAt_neg_dnorm (t : ℝ) :
    HasDerivAt (fun s : ℝ => -dnorm s) (t * dnorm t) t := by
  have h1 : HasDerivAt (fun s : ℝ => -s ^ 2 / 2) (-t) t := by
    have := ((hasDerivAt_pow 2 t).neg.div_const 2)
    simpa using this.congr_deriv (by ring)
  have h2 : HasDerivAt (fun s : ℝ => Real.exp (-s ^ 2 / 2))
      (Real.exp (-t ^ 2 / 2) * -t) t := h1.exp
  have h3 := (h2.const_mul (Real.sqrt (2 * Real.pi))⁻¹).neg
  refine h3.congr_deriv ?_
  rw [dnorm]; ring

lemma tendsto_dnorm_atBot : Filter.Tendsto dnorm Filter.atBot (nhds 0) := by
  have hsq : Filter.Tendsto (fun t : ℝ => t ^ 2) Filter.atBot Filter.atTop := by
    have h1 : Filter.Tendsto (fun t : ℝ => (-t) ^ 2) Filter.atBot Filter.atTop :=
      (Filter.tendsto_pow_atTop (n := 2) (by norm_num)).comp
        Filter.tendsto_neg_atBot_atTop
    refine h1.congr fun t => by ring
  have harg : Filter.Tendsto (fun t : ℝ => -t ^ 2 / 2) Filter.atBot Filter.atBot := by
    have h2 : Filter.Tendsto (fun t : ℝ => t ^ 2 / 2) Filter.atBot Filter.atTop :=
      hsq.atTop_div_const (by norm_num)
    have h3 := Filter.tendsto_neg_atTop_atBot.comp h2
    refine h3.congr fun t => ?_
    simp only [Function.comp_apply]
    ring
  have hexp : Filter.Tendsto (fun t : ℝ => Real.exp (-t ^ 2 / 2))
      Filter.atBot (nhds 0) := Real.tendsto_exp_atBot.comp harg
  have h4 : Filter.Tendsto
      (fun t : ℝ => (Real.sqrt (2 * Real.pi))⁻¹ * Real.exp (-t ^ 2 / 2))
      Filter.atBot (nhds ((Real.sqrt (2 * Real.pi))⁻¹ * 0)) := hexp.const_mul _
  rw [mul_zero] at h4
  exact h4

lemma integral_Iic_id_mul_dnorm (z : ℝ) :
    ∫ t in Iic z, t * dnorm t = -dnorm z := by
  have hf0 : Filter.Tendsto (fun s : ℝ => -dnorm s) Filter.atBot (nhds 0) := by
    simpa using tendsto_dnorm_atBot.neg
  have hint : IntegrableOn (fun s : ℝ => s * dnorm s) (Iic z) :=
    integrable_id_mul_dnorm.integrableOn
  have h := MeasureTheory.integral_Iic_of_hasDerivAt_of_tendsto'
    (fun x _ => hasDerivAt_neg_dnorm x) hint hf0
  simpa using h

lemma pnorm_nonneg (z : ℝ) : 0 ≤ pnorm z :=
  setIntegral_nonneg measurableSet_Iic fun t _ => (dnorm_pos t).le

lemma integral_dnorm : ∫ t, dnorm t = 1 := by
  have he : dnorm = fun t : ℝ =>
      (Real.sqrt (2 * Real.pi))⁻¹ * Real.exp (-(1 / 2) * t ^ 2) := by
    funext t; rw [dnorm]; congr 1; ring
  rw [he, MeasureTheory.integral_mul_left, integral_gaussian]
  have : Real.sqrt (Real.pi / (1 / 2)) = Real.sqrt (2 * Real.pi) := by
    congr 1; ring
  rw [this]
  have hpos : (0 : ℝ) < Real.sqrt (2 * Real.pi) := by positivity
  field_simp

lemma intervalIntegral_dnorm_pos {a b : ℝ} (hab : a < b) :
    0 < ∫ t in a..b, dnorm t :=
  intervalIntegral.intervalIntegral_pos_of_pos
    (dnorm_continuous.intervalIntegrable a b) dnorm_pos hab

lemma pnorm_lt_pnorm {a b : ℝ} (hab : a < b) : pnorm a < pnorm b := by
  have hia : IntegrableOn dnorm (Iic a) volume := integrable_dnorm.integrableOn
  have hib : IntegrableOn dnorm (Iic b) volume := integrable_dnorm.integrableOn
  have h := intervalIntegral.integral_Iic_sub_Iic hia hib
  have hpos := intervalIntegral_dnorm_pos hab
  have : pnorm b - pnorm a = ∫ t in a..b, dnorm t := h
  linarith

lemma pnorm_pos (z : ℝ) : 0 < pnorm z := by
  have h1 : 0 < ∫ t in (z - 1)..z, dnorm t :=
    intervalIntegral_dnorm_pos (by linarith)
  have h2 : (∫ t in (z - 1)..z, dnorm t) = ∫ t in Ioc (z - 1) z, dnorm t :=
    intervalIntegral.integral_of_le (by linarith)
  have h3 : (∫ t in Ioc (z - 1) z, dnorm t) ≤ ∫ t in Iic z, dnorm t := by
    refine setIntegral_mono_set integrable_dnorm.integrableOn
      (Filter.Eventually.of_forall fun t => (dnorm_pos t).le)
      (Filter.Eventually.of_forall ?_)
    intro t ht
    exact ht.2
  have : (0 : ℝ) < ∫ t in Iic z, dnorm t := by linarith
  exact this

lemma pnorm_add_Ioi (z : ℝ) : pnorm z + (∫ t in Ioi z, dnorm t) = 1 := by
  have hia : IntegrableOn dnorm (Iic z) volume := integrable_dnorm.integrableOn
  have hib : IntegrableOn dnorm (Ioi z) volume := integrable_dnorm.integrableOn
  have h := intervalIntegral.integral_Iic_add_Ioi hia hib
  unfold pnorm
  rw [h, integral_dnorm]

lemma pnorm_lt_one (z : ℝ) : pnorm z < 1 := by
  have h1 : 0 < ∫ t in z..(z + 1), dnorm t :=
    intervalIntegral_dnorm_pos (by linarith)
  have h2 : (∫ t in z..(z + 1), dnorm t) = ∫ t in Ioc z (z + 1), dnorm t :=
    intervalIntegral.integral_of_le (by linarith)
  have h3 : (∫ t in Ioc z (z + 1), dnorm t) ≤ ∫ t in Ioi z, dnorm t := by
    refine setIntegral_mono_set integrable_dnorm.integrableOn
      (Filter.Eventually.of_forall fun t => (dnorm_pos t).le)
      (Filter.Eventually.of_forall ?_)
    intro t ht
    exact ht.1
  have h4 := pnorm_add_Ioi z
  linarith

lemma pnorm_zero : pnorm 0 = 1 / 2 := by
  have hsym : (∫ t in Iic (0 : ℝ), dnorm t) = ∫ t in Ioi (0 : ℝ), dnorm t := by
    have h := integral_comp_neg_Iic (0 : ℝ) dnorm
    have he : (fun t : ℝ => dnorm (-t)) = dnorm := by
      funext t; exact dnorm_neg t
    rw [he] at h
    simpa using h
  have h4 := pnorm_add_Ioi 0
  unfold pnorm at h4 ⊢
  linarith

/-- Key inequality: the standard normal loss function `z * Phi(z) + phi(z)`
is nonnegative for every real `z`; this is what makes the guarded curvature
strictly negative. -/
lemma stdnormal_loss_nonneg (z : ℝ) : 0 ≤ z * pnorm z + dnorm z := by
  rcases le_or_lt 0 z with hz | hz
  · have := pnorm_nonneg z
    have := dnorm_pos z
    nlinarith
  · have hzne : z ≠ 0 := ne_of_lt hz
    have h1 : pnorm z ≤ ∫ t in Iic z, z⁻¹ * (t * dnorm t) := by
      refine setIntegral_mono_on integrable_dnorm.integrableOn
        ((integrable_id_mul_dnorm.const_mul z⁻¹).integrableOn)
        measurableSet_Iic fun t ht => ?_
      have ht' : t ≤ z := ht
      have hone : 1 ≤ t / z := by
        have hnum : t - z ≤ 0 := by linarith
        have hfrac : 0 ≤ (t - z) / z := div_nonneg_iff.mpr (Or.inr ⟨hnum, hz.le⟩)
        have : t / z = 1 + (t - z) / z := by field_simp
        linarith
      have hle : dnorm t ≤ t / z * dnorm t :=
        le_mul_of_one_le_left (dnorm_pos t).le hone
      calc dnorm t ≤ t / z * dnorm t := hle
        _ = z⁻¹ * (t * dnorm t) := by ring
    have h2 : (∫ t in Iic z, z⁻¹ * (t * dnorm t)) = z⁻¹ * -dnorm z := by
      rw [MeasureTheory.integral_mul_left, integral_Iic_id_mul_dnorm]
    have h3 : pnorm z ≤ -dnorm z / z := by
      rw [h2] at h1
      calc pnorm z ≤ z⁻¹ * -dnorm z := h1
        _ = -dnorm z / z := by ring
    have h4 : z * (-dnorm z / z) ≤ z * pnorm z :=
      mul_le_mul_of_nonpos_left h3 hz.le
    have h5 : z * (-dnorm z / z) = -dnorm z := by
      field_simp
      ring_nf
    linarith

/-! ## Mode and curvature solver (`get_SNVA_mode_n_Hess`) -/

/-- Result record of the mode/curvature solver. -/
structure mode_n_Hess where
  mode : ℝ
  Hess : ℝ

/-- The templated (AD-type) mode/curvature solver.  The sign selector is
`CppAD::CondExpLe(alpha, zero, -one, one)`, so `a_sign = -1` when
`alpha` is less than or equal to `0`. -/
noncomputable def get_SNVA_mode_n_Hess (mu sigma rho : ℝ) : mode_n_Hess :=
  let eps := machineEps
  let alpha := sigma * rho
  let a_sign : ℝ := if alpha ≤ 0 then -1 else 1
  let nu := Real.sqrt M_2_PI * alpha / Real.sqrt (1 + alpha * alpha)
  let nu_sq := nu * nu
  let gamma := (4 - Real.pi) / 2 * nu_sq * nu / (1 - nu_sq) ^ ((3 : ℝ) / 2)
  let mode := mu + sigma * (nu - gamma * Real.sqrt (1 - nu_sq) / 2 -
    a_sign / 2 * Real.exp (-(2 * Real.pi) / (a_sign * alpha + eps)))
  let z := rho * (mode - mu)
  let phi := dnorm z
  let Phi := pnorm z
  let Hess := -1 / sigma / sigma - rho * rho * phi * (z * Phi + phi) / (Phi * Phi + eps)
  ⟨mode, Hess⟩

/-- The `double` specialization of the mode/curvature solver.  The sign
selector is `alpha < 0 ? -one : one`, so `a_sign = 1` when `alpha = 0`. -/
noncomputable def get_SNVA_mode_n_Hess_dbl (mu sigma rho : ℝ) : mode_n_Hess :=
  let eps := machineEps
  let alpha := sigma * rho
  let a_sign : ℝ := if alpha < 0 then -1 else 1
  let nu := Real.sqrt M_2_PI * alpha / Real.sqrt (1 + alpha * alpha)
  let nu_sq := nu * nu
  let gamma := (4 - Real.pi) / 2 * nu_sq * nu / (1 - nu_sq) ^ ((3 : ℝ) / 2)
  let mode := mu + sigma * (nu - gamma * Real.sqrt (1 - nu_sq) / 2 -
    a_sign / 2 * Real.exp (-(2 * Real.pi) / (a_sign * alpha + eps)))
  let z := rho * (mode - mu)
  let phi := dnorm z
  let Phi := pnorm z
  let Hess := -1 / sigma / sigma - rho * rho * phi * (z * Phi + phi) / (Phi * Phi + eps)
  ⟨mode, Hess⟩

/-- The guarded curvature expression is strictly negative for any value `z`
of the standardized mode, whenever `sigma` is positive. -/
lemma Hess_formula_neg (sigma rho z : ℝ) (hs : 0 < sigma) :
    -1 / sigma / sigma -
      rho * rho * dnorm z * (z * pnorm z + dnorm z) /
        (pnorm z * pnorm z + machineEps) < 0 := by
  have hA : 0 < 1 / sigma / sigma := by positivity
  have hden : 0 < pnorm z * pnorm z + machineEps := by
    have := machineEps_pos
    nlinarith [mul_self_nonneg (pnorm z)]
  have hB : 0 ≤ rho * rho * dnorm z * (z * pnorm z + dnorm z) /
      (pnorm z * pnorm z + machineEps) := by
    apply div_nonneg _ hden.le
    exact mul_nonneg (mul_nonneg (mul_self_nonneg rho) (dnorm_pos z).le)
      (stdnormal_loss_nonneg z)
  have h1 : -1 / sigma / sigma = -(1 / sigma / sigma) := by ring
  linarith [hA, hB, h1]

/-- The curvature returned by the templated solver is strictly negative for
positive `sigma`. -/
lemma get_SNVA_mode_n_Hess_Hess_neg (mu sigma rho : ℝ) (hs : 0 < sigma) :
    (get_SNVA_mode_n_Hess mu sigma rho).Hess < 0 := by
  simp only [get_SNVA_mode_n_Hess]
  exact Hess_formula_neg sigma rho _ hs

/-- The curvature returned by the `double`-specialized solver is strictly
negative for positive `sigma`. -/
lemma get_SNVA_mode_n_Hess_dbl_Hess_neg (mu sigma rho : ℝ) (hs : 0 < sigma) :
    (get_SNVA_mode_n_Hess_dbl mu sigma rho).Hess < 0 := by
  simp only [get_SNVA_mode_n_Hess_dbl]
  exact Hess_formula_neg sigma rho _ hs

/-! ## Integrand families -/

/-- The threshold `mlogit_fam::too_large`. -/
def mlogit_fam_too_large : ℝ := 30

/-- The templated (AD-type) logistic integrand
`CppAD::CondExpGe(eta, too_large, eta, log(1 + exp(eta)))`:
the linear branch is taken when `eta` is greater than or equal to `30`. -/
noncomputable def mlogit_fam_g_ad (eta : ℝ) : ℝ :=
  if mlogit_fam_too_large ≤ eta then eta else Real.log (1 + Real.exp eta)

/-- The plain-`double` logistic integrand
`eta > too_large ? eta : log(1 + exp(eta))`:
the linear branch is taken only when `eta` is strictly greater than `30`. -/
noncomputable def mlogit_fam_g_d (eta : ℝ) : ℝ :=
  if mlogit_fam_too_large < eta then eta else Real.log (1 + Real.exp eta)

/-- The probit integrand `-pnorm_log(eta)` (identical formula in the AD and
`double` overloads). -/
noncomputable def probit_fam_g (eta : ℝ) : ℝ := -pnorm_log eta

/-! ## Quadrature data and the atomic quadrature evaluator -/

/-- A Gauss-Hermite node/weight table (`HermiteData`). -/
structure HermiteData where
  x : List ℝ
  w : List ℝ

/-- Modelled from the spec: the cached one-node Gauss-Hermite rule produced by
`GaussHermiteDataCached<double>(1)` (gaus-hermite.h is not under src/).  The
one-node rule over the weight exp(-x^2) has its node at 0 and weight
sqrt(pi), the normalization constant required by the QuadratureRule
invariant of spec section 3. -/
noncomputable def hermite1 : HermiteData := ⟨[0], [Real.sqrt Real.pi]⟩

/-- The value computation `integral_atomic<double, Fam>::comp`, parameterized
by the integrand family function `g`.  It uses the `double` specialization of
the mode/curvature solver. -/
noncomputable def integral_atomic_comp (g : ℝ → ℝ) (mu sig rho : ℝ)
    (xw : HermiteData) : ℝ :=
  let dvals := get_SNVA_mode_n_Hess_dbl mu sig rho
  let xi := dvals.mode
  let lambda := 1 / Real.sqrt (-dvals.Hess)
  let mult := M_SQRT2 * lambda
  (((xw.x.zip xw.w).map (fun p =>
      let xx := p.1
      let zz := xi + mult * xx
      let dif := zz - mu
      p.2 * g zz * Real.exp (xx * xx - dif * dif / 2 / sig / sig) *
        pnorm (rho * dif))).sum) * (M_2_SQRTPI * lambda / sig)

/-- The templated `mlogit_integral(mu, sigma, rho, hd)` evaluator. -/
noncomputable def mlogit_integral (mu sigma rho : ℝ) (hd : HermiteData) : ℝ :=
  let dvals := get_SNVA_mode_n_Hess mu sigma rho
  let sigma_sq := sigma * sigma
  let xi := dvals.mode
  let lambda := 1 / Real.sqrt (-dvals.Hess)
  let mult_sum := lambda / sigma * M_2_SQRTPI
  let mult := M_SQRT2 * lambda
  mult_sum * ((hd.x.zip hd.w).map (fun p =>
      let o := p.1
      let xo := xi + mult * o
      let xo_diff := xo - mu
      let fac := if mlogit_fam_too_large ≤ xo then xo else Real.log (1 + Real.exp xo)
      p.2 * Real.exp (o * o - xo_diff * xo_diff / 2 / sigma_sq) *
        pnorm (rho * (xo - mu)) * fac)).sum

/-- The `mlogit_integral` overload with a log-offset: the source forwards to
the base integral at `mu + log_k`. -/
noncomputable def mlogit_integral_offset (mu sigma rho log_k : ℝ)
    (hd : HermiteData) : ℝ :=
  mlogit_integral (mu + log_k) sigma rho hd

/-- The templated `probit_integral(mu, sigma, rho, hd)` evaluator. -/
noncomputable def probit_integral (mu sigma rho : ℝ) (hd : HermiteData) : ℝ :=
  let dvals := get_SNVA_mode_n_Hess mu sigma rho
  let sigma_sq := sigma * sigma
  let xi := dvals.mode
  let lambda := 1 / Real.sqrt (-dvals.Hess)
  let mult_sum := lambda / sigma * M_2_SQRTPI
  let mult := M_SQRT2 * lambda
  mult_sum * ((hd.x.zip hd.w).map (fun p =>
      let o := p.1
      let xo := xi + mult * o
      let xo_diff := xo - mu
      p.2 * Real.exp (o * o - xo_diff * xo_diff / 2 / sigma_sq) *
        pnorm (rho * (xo - mu)) * (-pnorm_log xo))).sum

/-- The `probit_integral` overload with argument `k`: the source forwards to
the base integral at `(k - mu, sigma, -rho)`. -/
noncomputable def probit_integral_offset (mu sigma rho k : ℝ)
    (hd : HermiteData) : ℝ :=
  probit_integral (k - mu) sigma (-rho) hd

/-- Claim-side definition following the words of spec section 4.3(b): the
quadrature sum `(2/sqrt(pi)) * (lambda/sigma) * sum_i w_i * g(z_i) *
exp(x_i^2 - (z_i - mu)^2 / (2 sigma^2)) * Phi(rho * (z_i - mu))` with
`z_i = xi + sqrt(2) * lambda * x_i` and `(xi, lambda = 1/sqrt(-curvature))`
taken from the mode/curvature solver (passed as a parameter so that both the
templated and the `double`-specialized solver can be plugged in). -/
noncomputable def family_integral_spec (solver : ℝ → ℝ → ℝ → mode_n_Hess)
    (g : ℝ → ℝ) (mu sigma rho : ℝ) (hd : HermiteData) : ℝ :=
  let d := solver mu sigma rho
  let xi := d.mode
  let lambda := 1 / Real.sqrt (-d.Hess)
  2 / Real.sqrt Real.pi * (lambda / sigma) *
    ((hd.x.zip hd.w).map (fun p =>
      p.2 * g (xi + Real.sqrt 2 * lambda * p.1) *
        Real.exp (p.1 ^ 2 -
          (xi + Real.sqrt 2 * lambda * p.1 - mu) ^ 2 / (2 * sigma ^ 2)) *
        pnorm (rho * (xi + Real.sqrt 2 * lambda * p.1 - mu)))).sum

lemma integral_atomic_comp_eq_spec (g : ℝ → ℝ) (mu sig rho : ℝ)
    (hd : HermiteData) :
    integral_atomic_comp g mu sig rho hd =
      family_integral_spec get_SNVA_mode_n_Hess_dbl g mu sig rho hd := by
  unfold integral_atomic_comp family_integral_spec M_SQRT2 M_2_SQRTPI
  dsimp only
  set xi := (get_SNVA_mode_n_Hess_dbl mu sig rho).mode with hxi
  set lam := 1 / Real.sqrt (-(get_SNVA_mode_n_Hess_dbl mu sig rho).Hess) with hlam
  have hS : ((hd.x.zip hd.w).map (fun p : ℝ × ℝ =>
        p.2 * g (xi + Real.sqrt 2 * lam * p.1) *
          Real.exp (p.1 * p.1 -
            (xi + Real.sqrt 2 * lam * p.1 - mu) * (xi + Real.sqrt 2 * lam * p.1 - mu)
              / 2 / sig / sig) *
          pnorm (rho * (xi + Real.sqrt 2 * lam * p.1 - mu)))).sum =
      ((hd.x.zip hd.w).map (fun p : ℝ × ℝ =>
        p.2 * g (xi + Real.sqrt 2 * lam * p.1) *
          Real.exp (p.1 ^ 2 -
            (xi + Real.sqrt 2 * lam * p.1 - mu) ^ 2 / (2 * sig ^ 2)) *
          pnorm (rho * (xi + Real.sqrt 2 * lam * p.1 - mu)))).sum := by
    apply congrArg List.sum
    apply List.map_congr_left
    intro p _
    rw [show p.1 * p.1 -
        (xi + Real.sqrt 2 * lam * p.1 - mu) * (xi + Real.sqrt 2 * lam * p.1 - mu)
          / 2 / sig / sig =
        p.1 ^ 2 - (xi + Real.sqrt 2 * lam * p.1 - mu) ^ 2 / (2 * sig ^ 2) from by
      ring]
  rw [hS]
  ring

lemma mlogit_integral_eq_spec (mu sigma rho : ℝ) (hd : HermiteData) :
    mlogit_integral mu sigma rho hd =
      family_integral_spec get_SNVA_mode_n_Hess mlogit_fam_g_ad mu sigma rho hd := by
  unfold mlogit_integral family_integral_spec M_SQRT2 M_2_SQRTPI mlogit_fam_g_ad
  dsimp only
  set xi := (get_SNVA_mode_n_Hess mu sigma rho).mode with hxi
  set lam := 1 / Real.sqrt (-(get_SNVA_mode_n_Hess mu sigma rho).Hess) with hlam
  have hS : ((hd.x.zip hd.w).map (fun p : ℝ × ℝ =>
        p.2 * Real.exp (p.1 * p.1 -
            (xi + Real.sqrt 2 * lam * p.1 - mu) * (xi + Real.sqrt 2 * lam * p.1 - mu)
              / 2 / (sigma * sigma)) *
          pnorm (rho * (xi + Real.sqrt 2 * lam * p.1 - mu)) *
          (if mlogit_fam_too_large ≤ xi + Real.sqrt 2 * lam * p.1 then
            xi + Real.sqrt 2 * lam * p.1
           else Real.log (1 + Real.exp (xi + Real.sqrt 2 * lam * p.1))))).sum =
      ((hd.x.zip hd.w).map (fun p : ℝ × ℝ =>
        p.2 * (if mlogit_fam_too_large ≤ xi + Real.sqrt 2 * lam * p.1 then
            xi + Real.sqrt 2 * lam * p.1
           else Real.log (1 + Real.exp (xi + Real.sqrt 2 * lam * p.1))) *
          Real.exp (p.1 ^ 2 -
            (xi + Real.sqrt 2 * lam * p.1 - mu) ^ 2 / (2 * sigma ^ 2)) *
          pnorm (rho * (xi + Real.sqrt 2 * lam * p.1 - mu)))).sum := by
    apply congrArg List.sum
    apply List.map_congr_left
    intro p _
    rw [show p.1 * p.1 -
        (xi + Real.sqrt 2 * lam * p.1 - mu) * (xi + Real.sqrt 2 * lam * p.1 - mu)
          / 2 / (sigma * sigma) =
        p.1 ^ 2 - (xi + Real.sqrt 2 * lam * p.1 - mu) ^ 2 / (2 * sigma ^ 2) from by
      ring]
    ring
  rw [hS]
  ring

lemma probit_integral_eq_spec (mu sigma rho : ℝ) (hd : HermiteData) :
    probit_integral mu sigma rho hd =
      family_integral_spec get_SNVA_mode_n_Hess probit_fam_g mu sigma rho hd := by
  unfold probit_integral family_integral_spec M_SQRT2 M_2_SQRTPI probit_fam_g
  dsimp only
  set xi := (get_SNVA_mode_n_Hess mu sigma rho).mode with hxi
  set lam := 1 / Real.sqrt (-(get_SNVA_mode_n_Hess mu sigma rho).Hess) with hlam
  have hS : ((hd.x.zip hd.w).map (fun p : ℝ × ℝ =>
        p.2 * Real.exp (p.1 * p.1 -
            (xi + Real.sqrt 2 * lam * p.1 - mu) * (xi + Real.sqrt 2 * lam * p.1 - mu)
              / 2 / (sigma * sigma)) *
          pnorm (rho * (xi + Real.sqrt 2 * lam * p.1 - mu)) *
          (-pnorm_log (xi + Real.sqrt 2 * lam * p.1)))).sum =
      ((hd.x.zip hd.w).map (fun p : ℝ × ℝ =>
        p.2 * (-pnorm_log (xi + Real.sqrt 2 * lam * p.1)) *
          Real.exp (p.1 ^ 2 -
            (xi + Real.sqrt 2 * lam * p.1 - mu) ^ 2 / (2 * sigma ^ 2)) *
          pnorm (rho * (xi + Real.sqrt 2 * lam * p.1 - mu)))).sum := by
    apply congrArg List.sum
    apply List.map_congr_left
    intro p _
    rw [show p.1 * p.1 -
        (xi + Real.sqrt 2 * lam * p.1 - mu) * (xi + Real.sqrt 2 * lam * p.1 - mu)
          / 2 / (sigma * sigma) =
        p.1 ^ 2 - (xi + Real.sqrt 2 * lam * p.1 - mu) ^ 2 / (2 * sigma ^ 2) from by
      ring]
    ring
  rw [hS]
  ring

/-- Mode value actually returned by the `double`-specialized solver at
`rho = 0`: the epsilon-guarded correction term shifts the center away from
`mu` by `sigma / 2 * exp(-2 pi / eps)`. -/
noncomputable def snva_mode0 (mu sigma : ℝ) : ℝ :=
  mu - sigma / 2 * Real.exp (-(2 * Real.pi) / machineEps)

lemma get_SNVA_mode_n_Hess_dbl_rho_zero (mu sigma : ℝ) :
    get_SNVA_mode_n_Hess_dbl mu sigma 0 =
      ⟨snva_mode0 mu sigma, -1 / sigma / sigma⟩ := by
  unfold get_SNVA_mode_n_Hess_dbl snva_mode0
  dsimp only
  simp only [mul_zero, lt_irrefl, if_false, zero_div, zero_mul, mul_zero,
    zero_add, one_mul, sub_zero, mode_n_Hess.mk.injEq]
  constructor
  · ring
  · ring

lemma lambda_rho_zero (sigma : ℝ) (hs : 0 < sigma) :
    1 / Real.sqrt (-(-1 / sigma / sigma)) = sigma := by
  have h1 : -(-1 / sigma / sigma) = (sigma⁻¹) ^ 2 := by ring
  rw [h1, Real.sqrt_sq (inv_nonneg.mpr hs.le)]
  simp

/-- At `rho = 0` the probit family integral computed by
`integral_atomic_comp` factors: `lambda` is exactly `sigma`, the
`Phi(rho (z - mu))` factor is the constant `1/2`, and the quadrature centers
at `snva_mode0 mu sigma` rather than at `mu`. -/
lemma comp_probit_rho_zero (mu sigma : ℝ) (hs : 0 < sigma) (hd : HermiteData) :
    integral_atomic_comp probit_fam_g mu sigma 0 hd =
      1 / 2 * (2 / Real.sqrt Real.pi) *
        ((hd.x.zip hd.w).map (fun p =>
          p.2 * probit_fam_g (snva_mode0 mu sigma + Real.sqrt 2 * sigma * p.1) *
            Real.exp (p.1 * p.1 -
              (snva_mode0 mu sigma + Real.sqrt 2 * sigma * p.1 - mu) *
              (snva_mode0 mu sigma + Real.sqrt 2 * sigma * p.1 - mu) /
                2 / sigma / sigma))).sum := by
  unfold integral_atomic_comp M_SQRT2 M_2_SQRTPI
  dsimp only
  rw [get_SNVA_mode_n_Hess_dbl_rho_zero]
  dsimp only
  rw [lambda_rho_zero sigma hs]
  have hmap : ((hd.x.zip hd.w).map (fun p : ℝ × ℝ =>
      p.2 * probit_fam_g (snva_mode0 mu sigma + Real.sqrt 2 * sigma * p.1) *
        Real.exp (p.1 * p.1 -
          (snva_mode0 mu sigma + Real.sqrt 2 * sigma * p.1 - mu) *
          (snva_mode0 mu sigma + Real.sqrt 2 * sigma * p.1 - mu) /
            2 / sigma / sigma) *
        pnorm (0 * (snva_mode0 mu sigma + Real.sqrt 2 * sigma * p.1 - mu)))).sum =
      ((hd.x.zip hd.w).map (fun p : ℝ × ℝ =>
      p.2 * probit_fam_g (snva_mode0 mu sigma + Real.sqrt 2 * sigma * p.1) *
        Real.exp (p.1 * p.1 -
          (snva_mode0 mu sigma + Real.sqrt 2 * sigma * p.1 - mu) *
          (snva_mode0 mu sigma + Real.sqrt 2 * sigma * p.1 - mu) /
            2 / sigma / sigma) * (1 / 2))).sum := by
    apply congrArg List.sum
    apply List.map_congr_left
    intro p _
    rw [zero_mul, pnorm_zero]
  rw [hmap, List.sum_map_mul_right]
  have hσ : sigma ≠ 0 := hs.ne'
  field_simp
  ring

/-- Claim-side definition following the spec's words in section 8: half of
the plain Gauss-Hermite approximation of the Gaussian expectation,
`0.5 * (2/sqrt(pi)) * sum_i w_i * g(mu + sqrt(2) * sigma * x_i)`. -/
noncomputable def probit_plain_gauss_spec (mu sigma : ℝ) (hd : HermiteData) : ℝ :=
  1 / 2 * (2 / Real.sqrt Real.pi) *
    ((hd.x.zip hd.w).map (fun p =>
      p.2 * probit_fam_g (mu + Real.sqrt 2 * sigma * p.1))).sum

lemma probit_plain_gauss_spec_hermite1 (sigma : ℝ) :
    probit_plain_gauss_spec 0 sigma hermite1 = probit_fam_g 0 := by
  unfold probit_plain_gauss_spec hermite1
  simp only [List.zip_cons_cons, List.zip_nil_right, List.map_cons, List.map_nil,
    List.sum_cons, List.sum_nil, add_zero, mul_zero, zero_add]
  have hsπ : Real.sqrt Real.pi ≠ 0 := by positivity
  field_simp

lemma comp_probit_hermite1_eval (sigma : ℝ) (hs : 0 < sigma) :
    integral_atomic_comp probit_fam_g 0 sigma 0 hermite1 =
      probit_fam_g (snva_mode0 0 sigma) *
        Real.exp (-(Real.exp (-(2 * Real.pi) / machineEps) *
          Real.exp (-(2 * Real.pi) / machineEps) / 8)) := by
  rw [comp_probit_rho_zero 0 sigma hs hermite1]
  unfold hermite1
  simp only [List.zip_cons_cons, List.zip_nil_right, List.map_cons, List.map_nil,
    List.sum_cons, List.sum_nil, add_zero, mul_zero, zero_add, sub_zero]
  have hsπ : Real.sqrt Real.pi ≠ 0 := by positivity
  have hexp : (0 : ℝ) - snva_mode0 0 sigma * snva_mode0 0 sigma / 2 / sigma / sigma =
      -(Real.exp (-(2 * Real.pi) / machineEps) *
        Real.exp (-(2 * Real.pi) / machineEps) / 8) := by
    unfold snva_mode0
    have hσ : sigma ≠ 0 := hs.ne'
    field_simp
    ring
  rw [hexp]
  field_simp
  ring

lemma mlogit_fam_g_d_pos (z : ℝ) : 0 < mlogit_fam_g_d z := by
  unfold mlogit_fam_g_d mlogit_fam_too_large
  split
  · linarith
  · have h1 : (1 : ℝ) < 1 + Real.exp z := by nlinarith [Real.exp_pos z]
    exact Real.log_pos h1

lemma mlogit_fam_g_ad_pos (z : ℝ) : 0 < mlogit_fam_g_ad z := by
  unfold mlogit_fam_g_ad mlogit_fam_too_large
  split
  · linarith
  · have h1 : (1 : ℝ) < 1 + Real.exp z := by nlinarith [Real.exp_pos z]
    exact Real.log_pos h1

lemma probit_fam_g_pos (z : ℝ) : 0 < probit_fam_g z := by
  unfold probit_fam_g pnorm_log
  have h1 := pnorm_pos z
  have h2 := pnorm_lt_one z
  have h3 := Real.log_neg h1 h2
  linarith

/-- The quadrature value `integral_atomic_comp` is strictly positive whenever
the integrand is pointwise positive, `sigma` is positive, and the rule has at
least one node with all weights positive. -/
lemma integral_atomic_comp_pos (g : ℝ → ℝ) (hg : ∀ z, 0 < g z)
    (mu sigma rho : ℝ) (hs : 0 < sigma) (hd : HermiteData)
    (hne : hd.x ≠ []) (hlen : hd.x.length = hd.w.length)
    (hw : ∀ w ∈ hd.w, 0 < w) :
    0 < integral_atomic_comp g mu sigma rho hd := by
  unfold integral_atomic_comp
  dsimp only
  have hH := get_SNVA_mode_n_Hess_dbl_Hess_neg mu sigma rho hs
  have hsq : 0 < Real.sqrt (-(get_SNVA_mode_n_Hess_dbl mu sigma rho).Hess) :=
    Real.sqrt_pos.mpr (by linarith)
  have hlam : 0 < 1 / Real.sqrt (-(get_SNVA_mode_n_Hess_dbl mu sigma rho).Hess) := by
    positivity
  apply mul_pos
  · apply List.sum_pos
    · intro a ha
      obtain ⟨p, hp, rfl⟩ := List.mem_map.mp ha
      have hpw : 0 < p.2 := hw _ (List.of_mem_zip hp).2
      exact mul_pos (mul_pos (mul_pos hpw (hg _)) (Real.exp_pos _)) (pnorm_pos _)
    · rw [ne_eq, List.map_eq_nil_iff]
      intro hzip
      have hlz : (hd.x.zip hd.w).length = hd.x.length := by
        rw [List.length_zip, hlen, min_self]
      rw [hzip] at hlz
      exact hne (List.eq_nil_of_length_eq_zero hlz.symm)
  · unfold M_2_SQRTPI
    have hπ : 0 < Real.sqrt Real.pi := Real.sqrt_pos.mpr Real.pi_pos
    positivity

/-! ## Parameter transform layer -/

/-- Modelled from the spec: `survTMB::get_vcov_from_trian` lives in utils.h,
which is not under src/.  Per spec sections 3 and 9 it builds a covariance
matrix from a packed lower-triangular parameterization with `r(r+1)/2` free
values (log-scale diagonal entries first, then strictly-lower entries), as
`Sigma = L * L^T`.  Matrices are embedded as total index functions that are
zero outside the leading `r x r` block; the function consumes exactly the
first `r(r+1)/2` values of its input list (the C++ version reads that many
values through a raw pointer). -/
noncomputable def get_vcov_from_trian (vals : List ℝ) (r : ℕ) : ℕ → ℕ → ℝ :=
  let v := vals.take (r * (r + 1) / 2)
  let L : ℕ → ℕ → ℝ := fun i j =>
    if i < r ∧ j ≤ i then
      (if i = j then Real.exp (v.getD i 0) else v.getD (r + i * (i - 1) / 2 + j) 0)
    else 0
  fun i j => ∑ k ∈ Finset.range r, L i k * L j k

/-- Per-group output triples of the SNVA unpack functions
(`SNVA_MD_input`): mean vectors, covariance matrices and rho vectors. -/
structure SNVA_MD_input where
  va_mus : List (List ℝ)
  va_rhos : List (List ℝ)
  va_lambdas : List (ℕ → ℕ → ℝ)

/-- Number of raw values consumed per group by `SNVA_MD_theta_DP_to_DP`:
`rng_dim * 2 + rng_dim * (rng_dim + 1) / 2`. -/
def dp_block (r : ℕ) : ℕ := r * 2 + r * (r + 1) / 2

/-- Loop body of `SNVA_MD_theta_DP_to_DP`: reads `n_groups` consecutive
blocks, each of `r` mean values, `r(r+1)/2` packed covariance values and `r`
rho values, advancing through the raw vector exactly as the C++ pointer
does. -/
noncomputable def SNVA_MD_DP_groups (r : ℕ) : ℕ → List ℝ → SNVA_MD_input
  | 0, _ => ⟨[], [], []⟩
  | g + 1, t =>
    let mu_vec := t.take r
    let t1 := t.drop r
    let lam := get_vcov_from_trian t1 r
    let t2 := t1.drop (r * (r + 1) / 2)
    let rho_vec := t2.take r
    let rest := SNVA_MD_DP_groups r g (t2.drop r)
    ⟨mu_vec :: rest.va_mus, rho_vec :: rest.va_rhos, lam :: rest.va_lambdas⟩

/-- `SNVA_MD_theta_DP_to_DP`: unpacks `theta_VA.size() / dp_block` groups
(integer division, exactly as `unsigned const n_groups = theta_VA.size() /
(rng_dim * 2L + (rng_dim * (rng_dim + 1L)) / 2L)` in the source). -/
noncomputable def SNVA_MD_theta_DP_to_DP (theta_VA : List ℝ) (rng_dim : ℕ) :
    SNVA_MD_input :=
  SNVA_MD_DP_groups rng_dim (theta_VA.length / dp_block rng_dim) theta_VA

/-- The bounded sigmoid transform `get_gamma`: with `c1 = 0.99527` and
`c2 = 2 * c1`, maps `gtrans` to `c2 / (1 + exp(-gtrans)) - c1`. -/
noncomputable def get_gamma_c1 : ℝ := 0.99527

/-- Operator body of the `get_gamma` functor. -/
noncomputable def get_gamma (gtrans : ℝ) : ℝ :=
  2 * get_gamma_c1 / (1 + Real.exp (-gtrans)) - get_gamma_c1

/-- Modelled from the spec: `gamma_to_nu` lives in gamma-to-nu.h, which is not
under src/.  Per spec section 4.4 it converts the bounded skewness value to
the skew-normal shape parameter `nu` via a monotone nonlinear map into the
admissible shape domain; we model it as the monotone map
`s = 2 * g / (4 - pi)` followed by `nu = s / sqrt (1 + s^2)`, which lands in
`(-1, 1)`. -/
noncomputable def gamma_to_nu (gv : ℝ) : ℝ :=
  let s := 2 * gv / (4 - Real.pi)
  s / Real.sqrt (1 + s * s)

/-- Number of raw values consumed per group by
`SNVA_MD_theta_CP_trans_to_DP`: `n_mu + n_lambda + rng_dim`. -/
def cp_block (r : ℕ) : ℕ := r + r * (r + 1) / 2 + r

/-- Skew-normal shape value `nu[i]` computed by the CP-trans loop body from
the raw block `t`: the transformed skew entry sits after the `r` mean values
and the `r(r+1)/2` covariance values. -/
noncomputable def cp_nu (t : List ℝ) (r i : ℕ) : ℝ :=
  gamma_to_nu (get_gamma (t.getD (r + r * (r + 1) / 2 + i) 0))

/-- Marginal scale `omega[i] = sqrt(Sigma(i,i) / (1 - nu[i]^2))` computed by
the CP-trans loop body. -/
noncomputable def cp_omega (t : List ℝ) (r i : ℕ) : ℝ :=
  Real.sqrt (get_vcov_from_trian (t.drop r) r i i / (1 - cp_nu t r i * cp_nu t r i))

/-- One group of `SNVA_MD_theta_CP_trans_to_DP`, computed from the raw block
`t` (the suffix of the raw vector starting at this group):
`rho[i] = sqrt(pi) * nu[i] / omega[i] / sqrt(2 - pi * nu[i]^2)`, the mean is
recentered by `nu[i] * omega[i]`, and the covariance is inflated by the outer
product of the `nu * omega` vector.  Returns `(mu, Lambda, rhos)`. -/
noncomputable def SNVA_MD_CP_group (t : List ℝ) (r : ℕ) :
    List ℝ × (ℕ → ℕ → ℝ) × List ℝ :=
  let Sigma := get_vcov_from_trian (t.drop r) r
  let rhos := (List.range r).map fun i =>
    Real.sqrt Real.pi * cp_nu t r i / cp_omega t r i /
      Real.sqrt (2 - Real.pi * (cp_nu t r i * cp_nu t r i))
  let nuomega : ℕ → ℝ := fun i => cp_nu t r i * cp_omega t r i
  let mu := (List.range r).map fun i => t.getD i 0 - nuomega i
  let Lambda : ℕ → ℕ → ℝ := fun i j =>
    Sigma i j + (if i < r then nuomega i else 0) * (if j < r then nuomega j else 0)
  (mu, Lambda, rhos)

/-- Loop of `SNVA_MD_theta_CP_trans_to_DP`: reads `n_groups` consecutive
blocks of `cp_block r` raw values each. -/
noncomputable def SNVA_MD_CP_groups (r : ℕ) : ℕ → List ℝ → SNVA_MD_input
  | 0, _ => ⟨[], [], []⟩
  | g + 1, t =>
    let grp := SNVA_MD_CP_group t r
    let rest := SNVA_MD_CP_groups r g (t.drop (cp_block r))
    ⟨grp.1 :: rest.va_mus, grp.2.2 :: rest.va_rhos, grp.2.1 :: rest.va_lambdas⟩

/-- `SNVA_MD_theta_CP_trans_to_DP`: unpacks `theta_VA.size() / cp_block`
groups (integer division, exactly as in the source). -/
noncomputable def SNVA_MD_theta_CP_trans_to_DP (theta_VA : List ℝ)
    (rng_dim : ℕ) : SNVA_MD_input :=
  SNVA_MD_CP_groups rng_dim (theta_VA.length / cp_block rng_dim) theta_VA

/-! ## Prefix-determination lemmas for the unpack functions -/

lemma take_eq_of_take_eq {l₁ l₂ : List ℝ} {m k : ℕ} (hk : k ≤ m)
    (h : l₁.take m = l₂.take m) : l₁.take k = l₂.take k := by
  have h1 : (l₁.take m).take k = (l₂.take m).take k := by rw [h]
  rwa [List.take_take, List.take_take, Nat.min_eq_left hk] at h1

lemma getD_eq_of_take_eq {l₁ l₂ : List ℝ} {m i : ℕ} (hi : i < m)
    (h : l₁.take m = l₂.take m) : l₁.getD i 0 = l₂.getD i 0 := by
  have h1 : (l₁.take m)[i]? = (l₂.take m)[i]? := by rw [h]
  rw [List.getElem?_take_of_lt hi, List.getElem?_take_of_lt hi] at h1
  simp only [List.getD_eq_getElem?_getD, h1]

lemma drop_take_eq_of_take_eq {l₁ l₂ : List ℝ} {m j k : ℕ} (hjk : j + k ≤ m)
    (h : l₁.take m = l₂.take m) : (l₁.drop j).take k = (l₂.drop j).take k := by
  rw [List.take_drop, List.take_drop]
  rw [take_eq_of_take_eq hjk h]

lemma get_vcov_from_trian_congr {v₁ v₂ : List ℝ} {r : ℕ}
    (h : v₁.take (r * (r + 1) / 2) = v₂.take (r * (r + 1) / 2)) :
    get_vcov_from_trian v₁ r = get_vcov_from_trian v₂ r := by
  unfold get_vcov_from_trian
  rw [h]

lemma SNVA_MD_DP_groups_lengths (r : ℕ) :
    ∀ (g : ℕ) (t : List ℝ),
      (SNVA_MD_DP_groups r g t).va_mus.length = g ∧
      (SNVA_MD_DP_groups r g t).va_rhos.length = g ∧
      (SNVA_MD_DP_groups r g t).va_lambdas.length = g := by
  intro g
  induction g with
  | zero => intro t; simp [SNVA_MD_DP_groups]
  | succ n ih =>
    intro t
    simp only [SNVA_MD_DP_groups, List.length_cons]
    obtain ⟨h1, h2, h3⟩ := ih _
    exact ⟨by rw [h1], by rw [h2], by rw [h3]⟩

lemma SNVA_MD_CP_groups_lengths (r : ℕ) :
    ∀ (g : ℕ) (t : List ℝ),
      (SNVA_MD_CP_groups r g t).va_mus.length = g ∧
      (SNVA_MD_CP_groups r g t).va_rhos.length = g ∧
      (SNVA_MD_CP_groups r g t).va_lambdas.length = g := by
  intro g
  induction g with
  | zero => intro t; simp [SNVA_MD_CP_groups]
  | succ n ih =>
    intro t
    simp only [SNVA_MD_CP_groups, List.length_cons]
    obtain ⟨h1, h2, h3⟩ := ih _
    exact ⟨by rw [h1], by rw [h2], by rw [h3]⟩

lemma SNVA_MD_DP_groups_congr (r : ℕ) :
    ∀ (g : ℕ) (t₁ t₂ : List ℝ),
      t₁.take (g * dp_block r) = t₂.take (g * dp_block r) →
      SNVA_MD_DP_groups r g t₁ = SNVA_MD_DP_groups r g t₂ := by
  intro g
  induction g with
  | zero => intro t₁ t₂ _; rfl
  | succ n ih =>
    intro t₁ t₂ h
    have hB : dp_block r ≤ (n + 1) * dp_block r :=
      Nat.le_mul_of_pos_left _ (Nat.succ_pos n)
    have hBval : dp_block r = r * 2 + r * (r + 1) / 2 := rfl
    simp only [SNVA_MD_DP_groups]
    have hmu : t₁.take r = t₂.take r :=
      take_eq_of_take_eq (by omega) h
    have hvcov : get_vcov_from_trian (t₁.drop r) r =
        get_vcov_from_trian (t₂.drop r) r := by
      apply get_vcov_from_trian_congr
      exact drop_take_eq_of_take_eq (by omega) h
    have hrho : ((t₁.drop r).drop (r * (r + 1) / 2)).take r =
        ((t₂.drop r).drop (r * (r + 1) / 2)).take r := by
      rw [List.drop_drop, List.drop_drop]
      exact drop_take_eq_of_take_eq (by omega) h
    have hsum : (n + 1) * dp_block r = dp_block r + n * dp_block r := by ring
    have hrest : SNVA_MD_DP_groups r n (((t₁.drop r).drop (r * (r + 1) / 2)).drop r) =
        SNVA_MD_DP_groups r n (((t₂.drop r).drop (r * (r + 1) / 2)).drop r) := by
      rw [List.drop_drop, List.drop_drop, List.drop_drop, List.drop_drop]
      apply ih
      exact drop_take_eq_of_take_eq (by omega) h
    rw [hmu, hvcov, hrho, hrest]

lemma cp_nu_congr {t₁ t₂ : List ℝ} {r i : ℕ} (hi : i < r)
    (h : t₁.take (cp_block r) = t₂.take (cp_block r)) :
    cp_nu t₁ r i = cp_nu t₂ r i := by
  unfold cp_nu
  have hBval : cp_block r = r + r * (r + 1) / 2 + r := rfl
  rw [getD_eq_of_take_eq (by omega) h]

lemma cp_omega_congr {t₁ t₂ : List ℝ} {r i : ℕ} (hi : i < r)
    (h : t₁.take (cp_block r) = t₂.take (cp_block r)) :
    cp_omega t₁ r i = cp_omega t₂ r i := by
  unfold cp_omega
  have hBval : cp_block r = r + r * (r + 1) / 2 + r := rfl
  have hvcov : get_vcov_from_trian (t₁.drop r) r =
      get_vcov_from_trian (t₂.drop r) r :=
    get_vcov_from_trian_congr (drop_take_eq_of_take_eq (by omega) h)
  rw [hvcov, cp_nu_congr hi h]

lemma SNVA_MD_CP_group_congr {t₁ t₂ : List ℝ} {r : ℕ}
    (h : t₁.take (cp_block r) = t₂.take (cp_block r)) :
    SNVA_MD_CP_group t₁ r = SNVA_MD_CP_group t₂ r := by
  unfold SNVA_MD_CP_group
  dsimp only
  have hBval : cp_block r = r + r * (r + 1) / 2 + r := rfl
  have hvcov : get_vcov_from_trian (t₁.drop r) r =
      get_vcov_from_trian (t₂.drop r) r :=
    get_vcov_from_trian_congr (drop_take_eq_of_take_eq (by omega) h)
  have hrhos : (List.range r).map (fun i =>
      Real.sqrt Real.pi * cp_nu t₁ r i / cp_omega t₁ r i /
        Real.sqrt (2 - Real.pi * (cp_nu t₁ r i * cp_nu t₁ r i))) =
      (List.range r).map (fun i =>
      Real.sqrt Real.pi * cp_nu t₂ r i / cp_omega t₂ r i /
        Real.sqrt (2 - Real.pi * (cp_nu t₂ r i * cp_nu t₂ r i))) := by
    apply List.map_congr_left
    intro i hir
    have hi : i < r := List.mem_range.mp hir
    rw [cp_nu_congr hi h, cp_omega_congr hi h]
  have hmu : (List.range r).map (fun i => t₁.getD i 0 - cp_nu t₁ r i * cp_omega t₁ r i) =
      (List.range r).map (fun i => t₂.getD i 0 - cp_nu t₂ r i * cp_omega t₂ r i) := by
    apply List.map_congr_left
    intro i hir
    have hi : i < r := List.mem_range.mp hir
    rw [cp_nu_congr hi h, cp_omega_congr hi h, getD_eq_of_take_eq (by omega) h]
  have hLam : (fun i j => get_vcov_from_trian (t₁.drop r) r i j +
      (if i < r then cp_nu t₁ r i * cp_omega t₁ r i else 0) *
      (if j < r then cp_nu t₁ r j * cp_omega t₁ r j else 0)) =
      (fun i j => get_vcov_from_trian (t₂.drop r) r i j +
      (if i < r then cp_nu t₂ r i * cp_omega t₂ r i else 0) *
      (if j < r then cp_nu t₂ r j * cp_omega t₂ r j else 0)) := by
    funext i j
    rw [hvcov]
    by_cases hi : i < r
    · by_cases hj : j < r
      · rw [if_pos hi, if_pos hi, if_pos hj, if_pos hj,
          cp_nu_congr hi h, cp_omega_congr hi h, cp_nu_congr hj h, cp_omega_congr hj h]
      · rw [if_neg hj, if_neg hj, mul_zero, mul_zero]
    · rw [if_neg hi, if_neg hi, zero_mul, zero_mul]
  rw [hrhos, hmu, hLam]

lemma SNVA_MD_CP_groups_congr (r : ℕ) :
    ∀ (g : ℕ) (t₁ t₂ : List ℝ),
      t₁.take (g * cp_block r) = t₂.take (g * cp_block r) →
      SNVA_MD_CP_groups r g t₁ = SNVA_MD_CP_groups r g t₂ := by
  intro g
  induction g with
  | zero => intro t₁ t₂ _; rfl
  | succ n ih =>
    intro t₁ t₂ h
    have hB : cp_block r ≤ (n + 1) * cp_block r :=
      Nat.le_mul_of_pos_left _ (Nat.succ_pos n)
    have hsum : (n + 1) * cp_block r = cp_block r + n * cp_block r := by ring
    simp only [SNVA_MD_CP_groups]
    have hgrp : SNVA_MD_CP_group t₁ r = SNVA_MD_CP_group t₂ r :=
      SNVA_MD_CP_group_congr (take_eq_of_take_eq hB h)
    have hrest : SNVA_MD_CP_groups r n (t₁.drop (cp_block r)) =
        SNVA_MD_CP_groups r n (t₂.drop (cp_block r)) := by
      apply ih
      exact drop_take_eq_of_take_eq (by omega) h
    rw [hgrp, hrest]

lemma SNVA_MD_CP_groups_getD (r : ℕ) :
    ∀ (g k : ℕ) (t : List ℝ), k < g →
      (SNVA_MD_CP_groups r g t).va_mus.getD k [] =
        (SNVA_MD_CP_group (t.drop (k * cp_block r)) r).1 ∧
      (SNVA_MD_CP_groups r g t).va_rhos.getD k [] =
        (SNVA_MD_CP_group (t.drop (k * cp_block r)) r).2.2 ∧
      (SNVA_MD_CP_groups r g t).va_lambdas.getD k (fun _ _ => 0) =
        (SNVA_MD_CP_group (t.drop (k * cp_block r)) r).2.1 := by
  intro g
  induction g with
  | zero => intro k t hk; exact absurd hk (Nat.not_lt_zero k)
  | succ n ih =>
    intro k t hk
    cases k with
    | zero =>
      simp [SNVA_MD_CP_groups]
    | succ m =>
      have hm : m < n := by omega
      have hrec := ih m (t.drop (cp_block r)) hm
      have hdrop : (t.drop (cp_block r)).drop (m * cp_block r) =
          t.drop ((m + 1) * cp_block r) := by
        rw [List.drop_drop]
        congr 1
        ring
      simp only [SNVA_MD_CP_groups, List.getD_cons_succ]
      rw [← hdrop]
      exact hrec

lemma get_gamma_mem_Ioo (x : ℝ) :
    -get_gamma_c1 < get_gamma x ∧ get_gamma x < get_gamma_c1 := by
  unfold get_gamma
  have hc : (0 : ℝ) < get_gamma_c1 := by unfold get_gamma_c1; norm_num
  have he : 0 < Real.exp (-x) := Real.exp_pos _
  have h0 : 0 < 1 + Real.exp (-x) := by linarith
  constructor
  · have hpos : 0 < 2 * get_gamma_c1 / (1 + Real.exp (-x)) := by positivity
    linarith
  · have hlt : 2 * get_gamma_c1 / (1 + Real.exp (-x)) < 2 * get_gamma_c1 :=
      div_lt_self (by linarith) (by linarith)
    linarith

/-! ## Quadrature rule cache (`get_cached`) -/

/-- Errors raised by `get_cached`: `invalidArgument` embeds the
`std::invalid_argument` thrown for `n = 0` or `n > n_cache`;
`parallelConstruction` embeds the `std::runtime_error` thrown when a missing
entry would be constructed inside a parallel region. -/
inductive CacheError where
  | invalidArgument : CacheError
  | parallelConstruction : CacheError
deriving DecidableEq

/-- State of one static `cached_values` array: `entries idx` is the instance
identity stored in slot `idx` (`none` when the `unique_ptr` is empty), and
`next_id` numbers the constructions performed so far, so that distinct
constructions yield distinct instances. -/
structure CacheState where
  entries : ℕ → Option ℕ
  next_id : ℕ

/-- The empty cache (all `unique_ptr` slots null). -/
def emptyCache : CacheState := ⟨fun _ => none, 0⟩

/-- The body shared by `entropy_term_integral<Type>::get_cached` and
`integral_atomic<Type, Fam>::get_cached`: validate `n` against the table
bound `n_cache` (modelled from the spec: `GaussHermiteDataCachedMaxArg()` is
declared in gaus-hermite.h, not under src/, so the bound is kept as a
parameter); return the cached instance when slot `n - 1` is filled; otherwise
fail if inside a parallel region, else construct, store and return a fresh
instance. -/
def get_cached (n_cache : ℕ) (inParallel : Bool) (n : ℕ) (st : CacheState) :
    Except CacheError (ℕ × CacheState) :=
  if n > n_cache ∨ n = 0 then .error .invalidArgument
  else
    let idx := n - 1
    match st.entries idx with
    | some id => .ok (id, st)
    | none =>
      if inParallel then .error .parallelConstruction
      else .ok (st.next_id,
        ⟨fun k => if k = idx then some st.next_id else st.entries k,
         st.next_id + 1⟩)

lemma get_cached_of_some {n_cache n : ℕ} {p : Bool} {st : CacheState} {id : ℕ}
    (hn1 : 1 ≤ n) (hn2 : n ≤ n_cache) (hsome : st.entries (n - 1) = some id) :
    get_cached n_cache p n st = .ok (id, st) := by
  unfold get_cached
  rw [if_neg (by omega)]
  simp only [hsome]

lemma get_cached_of_none_parallel {n_cache n : ℕ} {st : CacheState}
    (hn1 : 1 ≤ n) (hn2 : n ≤ n_cache) (hnone : st.entries (n - 1) = none) :
    get_cached n_cache true n st = .error .parallelConstruction := by
  unfold get_cached
  rw [if_neg (by omega)]
  simp only [hnone]
  rfl

lemma get_cached_of_none_serial {n_cache n : ℕ} {st : CacheState}
    (hn1 : 1 ≤ n) (hn2 : n ≤ n_cache) (hnone : st.entries (n - 1) = none) :
    get_cached n_cache false n st = .ok (st.next_id,
      ⟨fun k => if k = n - 1 then some st.next_id else st.entries k,
       st.next_id + 1⟩) := by
  unfold get_cached
  rw [if_neg (by omega)]
  simp only [hnone]
  rfl

lemma get_cached_invalid {n_cache n : ℕ} {p : Bool} {st : CacheState}
    (h : n = 0 ∨ n > n_cache) :
    get_cached n_cache p n st = .error .invalidArgument := by
  unfold get_cached
  rw [if_pos (by omega)]

lemma get_cached_error_invalid_iff (n_cache : ℕ) (p : Bool) (n : ℕ)
    (st : CacheState) :
    get_cached n_cache p n st = .error .invalidArgument ↔
      (n = 0 ∨ n > n_cache) := by
  constructor
  · intro h
    by_contra hcon
    push_neg at hcon
    obtain ⟨hne, hle⟩ := hcon
    have hn1 : 1 ≤ n := by omega
    cases hsome : st.entries (n - 1) with
    | some id =>
      rw [get_cached_of_some hn1 hle hsome] at h
      exact Except.noConfusion h
    | none =>
      cases p with
      | true =>
        rw [get_cached_of_none_parallel hn1 hle hsome] at h
        have := Except.error.inj h
        exact CacheError.noConfusion this
      | false =>
        rw [get_cached_of_none_serial hn1 hle hsome] at h
        exact Except.noConfusion h
  · intro h
    exact get_cached_invalid h

lemma get_cached_stable {n_cache n : ℕ} {p p₂ : Bool}
    {st st₂ : CacheState} {id : ℕ}
    (h : get_cached n_cache p n st = .ok (id, st₂)) :
    get_cached n_cache p₂ n st₂ = .ok (id, st₂) := by
  by_cases hval : n = 0 ∨ n > n_cache
  · rw [get_cached_invalid hval] at h
    exact Except.noConfusion h
  · push_neg at hval
    obtain ⟨hne, hle⟩ := hval
    have hn1 : 1 ≤ n := by omega
    cases hsome : st.entries (n - 1) with
    | some id0 =>
      rw [get_cached_of_some hn1 hle hsome] at h
      have hpair := Except.ok.inj h
      have hid : id0 = id := congrArg Prod.fst hpair
      have hst : st = st₂ := congrArg Prod.snd hpair
      subst hst
      exact get_cached_of_some hn1 hle (hid ▸ hsome)
    | none =>
      cases p with
      | true =>
        rw [get_cached_of_none_parallel hn1 hle hsome] at h
        exact Except.noConfusion h
      | false =>
        rw [get_cached_of_none_serial hn1 hle hsome] at h
        have hpair := Except.ok.inj h
        have hid : st.next_id = id := congrArg Prod.fst hpair
        have hst : (⟨fun k => if k = n - 1 then some st.next_id else st.entries k,
            st.next_id + 1⟩ : CacheState) = st₂ := congrArg Prod.snd hpair
        have hsome₂ : st₂.entries (n - 1) = some id := by
          rw [← hst, ← hid]
          simp
        exact get_cached_of_some hn1 hle hsome₂

lemma range_map_getD {f : ℕ → ℝ} {r i : ℕ} (hi : i < r) :
    ((List.range r).map f).getD i 0 = f i := by
  simp [List.getD_eq_getElem?_getD, List.getElem?_range hi]

lemma drop_getD (l : List ℝ) (n i : ℕ) :
    (l.drop n).getD i 0 = l.getD (n + i) 0 := by
  simp [List.getD_eq_getElem?_getD, List.getElem?_drop]

/-! ## Claim theorems -/

/-- C1: for every input (mu, sigma, rho) with sigma > 0, the curvature (Hess
field) returned by the mode/curvature solver `get_SNVA_mode_n_Hess` — both
the templated form and the `double` specialization — is strictly negative,
so that 1/sqrt(-curvature) is well defined downstream. -/
theorem C1_curvature_strictly_negative (mu sigma rho : ℝ) (hs : 0 < sigma) :
    (get_SNVA_mode_n_Hess mu sigma rho).Hess < 0 ∧
    (get_SNVA_mode_n_Hess_dbl mu sigma rho).Hess < 0 :=
  ⟨get_SNVA_mode_n_Hess_Hess_neg mu sigma rho hs,
   get_SNVA_mode_n_Hess_dbl_Hess_neg mu sigma rho hs⟩

/-- Witness for C1 at the concrete input (mu, sigma, rho) = (0, 1, 0). -/
theorem C1_curvature_strictly_negative_witness :
    (get_SNVA_mode_n_Hess 0 1 0).Hess < 0 ∧
    (get_SNVA_mode_n_Hess_dbl 0 1 0).Hess < 0 :=
  C1_curvature_strictly_negative 0 1 0 one_pos

/-- C2 counterexample: with rng_dim = 1 (block size 3) and a raw vector of
length 4 (not a multiple of 3), both unpack functions return normally with
exactly one group and silently ignore the trailing element: the output is
identical to the output on the truncated length-3 vector, so the mismatch is
not signaled to the caller. -/
theorem C2_counterexample :
    (SNVA_MD_theta_DP_to_DP [1, 2, 3, 4] 1).va_mus.length = 1 ∧
    SNVA_MD_theta_DP_to_DP [1, 2, 3, 4] 1 = SNVA_MD_theta_DP_to_DP [1, 2, 3] 1 ∧
    SNVA_MD_theta_CP_trans_to_DP [1, 2, 3, 4] 1 =
      SNVA_MD_theta_CP_trans_to_DP [1, 2, 3] 1 := by
  refine ⟨rfl, ?_, ?_⟩
  · exact SNVA_MD_DP_groups_congr 1 1 [1, 2, 3, 4] [1, 2, 3] rfl
  · exact SNVA_MD_CP_groups_congr 1 1 [1, 2, 3, 4] [1, 2, 3] rfl

/-- C2 amended: both unpack functions produce exactly
`raw_vector.size() / block_size_per_group` groups (block size 2r + r(r+1)/2);
when the vector length is not an exact multiple of the block size the
trailing remainder is silently ignored (the output only depends on the first
`block * (size / block)` entries), not signaled. -/
theorem C2_amended_unpack_group_counts (theta : List ℝ) (r : ℕ) :
    ((SNVA_MD_theta_DP_to_DP theta r).va_mus.length = theta.length / dp_block r ∧
     (SNVA_MD_theta_DP_to_DP theta r).va_rhos.length = theta.length / dp_block r ∧
     (SNVA_MD_theta_DP_to_DP theta r).va_lambdas.length = theta.length / dp_block r) ∧
    ((SNVA_MD_theta_CP_trans_to_DP theta r).va_mus.length = theta.length / cp_block r ∧
     (SNVA_MD_theta_CP_trans_to_DP theta r).va_rhos.length = theta.length / cp_block r ∧
     (SNVA_MD_theta_CP_trans_to_DP theta r).va_lambdas.length = theta.length / cp_block r) ∧
    SNVA_MD_theta_DP_to_DP theta r =
      SNVA_MD_theta_DP_to_DP (theta.take (dp_block r * (theta.length / dp_block r))) r ∧
    SNVA_MD_theta_CP_trans_to_DP theta r =
      SNVA_MD_theta_CP_trans_to_DP (theta.take (cp_block r * (theta.length / cp_block r))) r := by
  refine ⟨SNVA_MD_DP_groups_lengths r _ theta, SNVA_MD_CP_groups_lengths r _ theta, ?_, ?_⟩
  · by_cases hz : dp_block r = 0
    · unfold SNVA_MD_theta_DP_to_DP
      rw [hz]
      simp [SNVA_MD_DP_groups]
    · have hpos : 0 < dp_block r := Nat.pos_of_ne_zero hz
      have hle : theta.length / dp_block r * dp_block r ≤ theta.length :=
        Nat.div_mul_le_self _ _
      have hlen2 : (theta.take (dp_block r * (theta.length / dp_block r))).length =
          dp_block r * (theta.length / dp_block r) := by
        rw [List.length_take]
        exact Nat.min_eq_left (by rw [Nat.mul_comm]; exact hle)
      unfold SNVA_MD_theta_DP_to_DP
      rw [hlen2, Nat.mul_div_cancel_left _ hpos]
      apply SNVA_MD_DP_groups_congr
      rw [List.take_take, Nat.mul_comm (dp_block r) (theta.length / dp_block r),
        min_self]
  · by_cases hz : cp_block r = 0
    · unfold SNVA_MD_theta_CP_trans_to_DP
      rw [hz]
      simp [SNVA_MD_CP_groups]
    · have hpos : 0 < cp_block r := Nat.pos_of_ne_zero hz
      have hle : theta.length / cp_block r * cp_block r ≤ theta.length :=
        Nat.div_mul_le_self _ _
      have hlen2 : (theta.take (cp_block r * (theta.length / cp_block r))).length =
          cp_block r * (theta.length / cp_block r) := by
        rw [List.length_take]
        exact Nat.min_eq_left (by rw [Nat.mul_comm]; exact hle)
      unfold SNVA_MD_theta_CP_trans_to_DP
      rw [hlen2, Nat.mul_div_cancel_left _ hpos]
      apply SNVA_MD_CP_groups_congr
      rw [List.take_take, Nat.mul_comm (cp_block r) (theta.length / cp_block r),
        min_self]

/-- C3: for every (mu, sigma, rho), both integrand families and any node
table, the family-integral value equals the quadrature sum
`(2/sqrt(pi)) * (lambda/sigma) * sum_i w_i * g(z_i) *
exp(x_i^2 - (z_i-mu)^2/(2 sigma^2)) * Phi(rho (z_i - mu))` with
`z_i = xi + sqrt(2) * lambda * x_i` and `(xi, lambda = 1/sqrt(-curvature))`
from the mode/curvature solver; this holds for `integral_atomic_comp` (with
the `double` solver) with both family integrands, and for the templated
`mlogit_integral` and `probit_integral` evaluators (with the templated
solver). -/
theorem C3_family_integral_is_quadrature_sum (mu sigma rho : ℝ)
    (hd : HermiteData) :
    integral_atomic_comp mlogit_fam_g_d mu sigma rho hd =
      family_integral_spec get_SNVA_mode_n_Hess_dbl mlogit_fam_g_d mu sigma rho hd ∧
    integral_atomic_comp probit_fam_g mu sigma rho hd =
      family_integral_spec get_SNVA_mode_n_Hess_dbl probit_fam_g mu sigma rho hd ∧
    mlogit_integral mu sigma rho hd =
      family_integral_spec get_SNVA_mode_n_Hess mlogit_fam_g_ad mu sigma rho hd ∧
    probit_integral mu sigma rho hd =
      family_integral_spec get_SNVA_mode_n_Hess probit_fam_g mu sigma rho hd :=
  ⟨integral_atomic_comp_eq_spec mlogit_fam_g_d mu sigma rho hd,
   integral_atomic_comp_eq_spec probit_fam_g mu sigma rho hd,
   mlogit_integral_eq_spec mu sigma rho hd,
   probit_integral_eq_spec mu sigma rho hd⟩

/-- C4 counterexample: at the concrete valid input n = 1 with N_max = 1 but
with an empty cache inside a parallel region, `get_cached` does not succeed:
it fails with the parallel-construction runtime error, refuting the
unconditional claim that every 1 <= n <= N_max succeeds. -/
theorem C4_counterexample :
    get_cached 1 true 1 emptyCache = .error .parallelConstruction := rfl

/-- C4 amended: for 1 <= n <= N_max, `get_cached n` succeeds provided the
entry is already constructed or execution is not inside a parallel region; it
fails with the invalid-argument condition exactly when n = 0 or n > N_max;
and after any successful call, every subsequent call with the same n returns
the same cached instance with the cache unchanged (no reconstruction). -/
theorem C4_amended_cache_contract (n_cache n : ℕ) (p : Bool) (st : CacheState) :
    (1 ≤ n → n ≤ n_cache →
      (p = false ∨ ∃ id, st.entries (n - 1) = some id) →
      ∃ id st₂, get_cached n_cache p n st = .ok (id, st₂)) ∧
    (get_cached n_cache p n st = .error .invalidArgument ↔
      (n = 0 ∨ n > n_cache)) ∧
    (∀ (p₂ : Bool) (id : ℕ) (st₂ : CacheState),
      get_cached n_cache p n st = .ok (id, st₂) →
      get_cached n_cache p₂ n st₂ = .ok (id, st₂)) := by
  refine ⟨?_, get_cached_error_invalid_iff n_cache p n st,
    fun p₂ id st₂ h => get_cached_stable h⟩
  intro h1 h2 h3
  cases hsome : st.entries (n - 1) with
  | some id => exact ⟨id, st, get_cached_of_some h1 h2 hsome⟩
  | none =>
    rcases h3 with hp | ⟨id, hid⟩
    · subst hp
      exact ⟨_, _, get_cached_of_none_serial h1 h2 hsome⟩
    · rw [hsome] at hid
      exact Option.noConfusion hid

/-- Witness for C4 amended: a fresh construction outside a parallel region
for n = 1 with N_max = 2 succeeds. -/
theorem C4_amended_cache_contract_witness :
    ∃ id st₂, get_cached 2 false 1 emptyCache = .ok (id, st₂) :=
  (C4_amended_cache_contract 2 1 false emptyCache).1 (by decide) (by decide)
    (Or.inl rfl)

/-- C5: when `get_cached` is called with a valid n whose cache entry has not
yet been constructed while inside a parallel region, it fails with the fatal
runtime error (and, the error carrying no new state, the entry is not
constructed); a call for an already-constructed entry returns that entry
normally, with the state unchanged, regardless of parallel context. -/
theorem C5_parallel_region_discipline (n_cache n : ℕ) (st : CacheState)
    (h1 : 1 ≤ n) (h2 : n ≤ n_cache) :
    (st.entries (n - 1) = none →
      get_cached n_cache true n st = .error .parallelConstruction) ∧
    (∀ id, st.entries (n - 1) = some id →
      ∀ p, get_cached n_cache p n st = .ok (id, st)) :=
  ⟨fun hn => get_cached_of_none_parallel h1 h2 hn,
   fun id hid p => get_cached_of_some h1 h2 hid⟩

/-- Witness for C5 at n = 1, N_max = 1, fresh cache, inside a parallel
region. -/
theorem C5_parallel_region_discipline_witness :
    get_cached 1 true 1 emptyCache = .error .parallelConstruction :=
  (C5_parallel_region_discipline 1 1 emptyCache (by decide) (by decide)).1 rfl

/-- C6: the offset overloads are pure compositions of the base integrals: the
mlogit integral with offset log_k equals the base mlogit integral at
(mu + log_k, sigma, rho), and the probit integral with argument k equals the
base probit integral at (k - mu, sigma, -rho). -/
theorem C6_offset_overloads_compose (mu sigma rho log_k k : ℝ)
    (hd : HermiteData) :
    mlogit_integral_offset mu sigma rho log_k hd =
      mlogit_integral (mu + log_k) sigma rho hd ∧
    probit_integral_offset mu sigma rho k hd =
      probit_integral (k - mu) sigma (-rho) hd :=
  ⟨rfl, rfl⟩

/-- C7: for every group g and dimension i, the CP-trans-to-DP conversion maps
the transformed skew input through the bounded sigmoid `get_gamma` into
(-0.99527, 0.99527), converts it to nu (`cp_nu`), sets
omega = sqrt(Sigma_ii / (1 - nu^2)) (`cp_omega`), outputs
rho_i = sqrt(pi) nu / (omega sqrt(2 - pi nu^2)), recenters the mean by
subtracting nu * omega componentwise, and inflates the covariance by the
outer product (nu omega)(nu omega)^T. -/
theorem C7_cp_trans_to_dp_formulas (theta : List ℝ) (r g i : ℕ)
    (hg : g < theta.length / cp_block r) (hi : i < r) :
    (∀ x : ℝ, -get_gamma_c1 < get_gamma x ∧ get_gamma x < get_gamma_c1) ∧
    ((SNVA_MD_theta_CP_trans_to_DP theta r).va_rhos.getD g []).getD i 0 =
      Real.sqrt Real.pi * cp_nu (theta.drop (g * cp_block r)) r i /
        (cp_omega (theta.drop (g * cp_block r)) r i *
          Real.sqrt (2 - Real.pi *
            (cp_nu (theta.drop (g * cp_block r)) r i *
             cp_nu (theta.drop (g * cp_block r)) r i))) ∧
    ((SNVA_MD_theta_CP_trans_to_DP theta r).va_mus.getD g []).getD i 0 =
      theta.getD (g * cp_block r + i) 0 -
        cp_nu (theta.drop (g * cp_block r)) r i *
        cp_omega (theta.drop (g * cp_block r)) r i ∧
    (∀ j, j < r →
      (SNVA_MD_theta_CP_trans_to_DP theta r).va_lambdas.getD g
          (fun _ _ => 0) i j =
        get_vcov_from_trian ((theta.drop (g * cp_block r)).drop r) r i j +
          cp_nu (theta.drop (g * cp_block r)) r i *
            cp_omega (theta.drop (g * cp_block r)) r i *
          (cp_nu (theta.drop (g * cp_block r)) r j *
            cp_omega (theta.drop (g * cp_block r)) r j)) := by
  obtain ⟨hmu, hrho, hlam⟩ :=
    SNVA_MD_CP_groups_getD r (theta.length / cp_block r) g theta hg
  refine ⟨get_gamma_mem_Ioo, ?_, ?_, ?_⟩
  · show ((SNVA_MD_CP_groups r (theta.length / cp_block r) theta).va_rhos.getD g
      []).getD i 0 = _
    rw [hrho]
    unfold SNVA_MD_CP_group
    dsimp only
    rw [range_map_getD hi, div_div]
  · show ((SNVA_MD_CP_groups r (theta.length / cp_block r) theta).va_mus.getD g
      []).getD i 0 = _
    rw [hmu]
    unfold SNVA_MD_CP_group
    dsimp only
    rw [range_map_getD hi, drop_getD]
  · intro j hj
    show (SNVA_MD_CP_groups r (theta.length / cp_block r) theta).va_lambdas.getD g
      (fun _ _ => 0) i j = _
    rw [hlam]
    unfold SNVA_MD_CP_group
    dsimp only
    rw [if_pos hi, if_pos hj]

/-- Witness for C7 at theta = [0,0,0], r = 1, g = 0, i = 0. -/
theorem C7_cp_trans_to_dp_formulas_witness :
    ((SNVA_MD_theta_CP_trans_to_DP [0, 0, 0] 1).va_mus.getD 0 []).getD 0 0 =
      List.getD [(0 : ℝ), 0, 0] (0 * cp_block 1 + 0) 0 -
        cp_nu (List.drop (0 * cp_block 1) [(0 : ℝ), 0, 0]) 1 0 *
        cp_omega (List.drop (0 * cp_block 1) [(0 : ℝ), 0, 0]) 1 0 :=
  (C7_cp_trans_to_dp_formulas [0, 0, 0] 1 0 0 (by decide) (by decide)).2.2.1

/-- C8 counterexample: at z = 30 the AD conditional-select version takes the
linear branch and returns 30, while the plain-double version returns
log(1 + exp 30), which is strictly greater than 30, so the two versions do
not agree at every z. -/
theorem C8_counterexample :
    mlogit_fam_g_ad 30 = 30 ∧ mlogit_fam_g_d 30 ≠ mlogit_fam_g_ad 30 := by
  have had : mlogit_fam_g_ad 30 = 30 := by
    unfold mlogit_fam_g_ad mlogit_fam_too_large
    rw [if_pos le_rfl]
  refine ⟨had, ?_⟩
  rw [had]
  unfold mlogit_fam_g_d mlogit_fam_too_large
  rw [if_neg (lt_irrefl (30 : ℝ))]
  have h2 : Real.exp 30 < 1 + Real.exp 30 := by linarith
  have h1 : (30 : ℝ) < Real.log (1 + Real.exp 30) := by
    calc (30 : ℝ) = Real.log (Real.exp 30) := (Real.log_exp 30).symm
      _ < Real.log (1 + Real.exp 30) := Real.log_lt_log (Real.exp_pos 30) h2
  exact ne_of_gt h1

/-- C8 amended: both versions of the logistic integrand return
log(1 + exp z) below the threshold 30 and z above it, implemented as a
conditional-select; the AD version switches at z >= 30 while the
plain-double version switches at z > 30, so the two agree at every z
other than exactly z = 30. -/
theorem C8_amended_logistic_branch (z : ℝ) :
    (z ≠ 30 → mlogit_fam_g_ad z = mlogit_fam_g_d z) ∧
    (z < 30 → mlogit_fam_g_ad z = Real.log (1 + Real.exp z)) ∧
    (30 ≤ z → mlogit_fam_g_ad z = z) ∧
    (z ≤ 30 → mlogit_fam_g_d z = Real.log (1 + Real.exp z)) ∧
    (30 < z → mlogit_fam_g_d z = z) := by
  unfold mlogit_fam_g_ad mlogit_fam_g_d mlogit_fam_too_large
  refine ⟨?_, ?_, ?_, ?_, ?_⟩
  · intro hne
    rcases lt_or_gt_of_ne hne with hlt | hgt
    · rw [if_neg (by linarith), if_neg (by linarith)]
    · rw [if_pos (by linarith), if_pos (by linarith)]
  · intro hlt
    rw [if_neg (by linarith)]
  · intro hge
    rw [if_pos hge]
  · intro hle
    rw [if_neg (by linarith)]
  · intro hgt
    rw [if_pos hgt]

/-- Witness for C8 amended at z = 0. -/
theorem C8_amended_logistic_branch_witness :
    mlogit_fam_g_ad 0 = mlogit_fam_g_d 0 :=
  (C8_amended_logistic_branch 0).1 (by norm_num)

/-- C9 counterexample: the claimed exact identity between the probit family
integral at rho = 0 and half the plain mu-centered Gauss-Hermite expectation
fails: assuming it for all (mu, sigma > 0) at the cached one-node rule forces
pnorm(-c) = pnorm(-2c) for the positive constant c = exp(-2 pi/eps)/2,
contradicting strict monotonicity of the normal CDF — the quadrature is in
fact centered at the solver mode, which differs from mu by the
epsilon-guarded correction term. -/
theorem C9_counterexample :
    ¬ ∀ (mu sigma : ℝ), 0 < sigma →
      integral_atomic_comp probit_fam_g mu sigma 0 hermite1 =
        probit_plain_gauss_spec mu sigma hermite1 := by
  intro H
  have h1 := H 0 1 one_pos
  have h2 := H 0 2 two_pos
  rw [comp_probit_hermite1_eval 1 one_pos, probit_plain_gauss_spec_hermite1] at h1
  rw [comp_probit_hermite1_eval 2 two_pos, probit_plain_gauss_spec_hermite1] at h2
  set E := Real.exp (-(2 * Real.pi) / machineEps) with hE
  have hEpos : 0 < E := Real.exp_pos _
  have hKpos : 0 < Real.exp (-(E * E / 8)) := Real.exp_pos _
  have heq : probit_fam_g (snva_mode0 0 1) = probit_fam_g (snva_mode0 0 2) :=
    mul_right_cancel₀ (ne_of_gt hKpos) (h1.trans h2.symm)
  have hm1 : snva_mode0 0 1 = -(E / 2) := by
    unfold snva_mode0
    rw [← hE]
    ring
  have hm2 : snva_mode0 0 2 = -E := by
    unfold snva_mode0
    rw [← hE]
    ring
  rw [hm1, hm2] at heq
  unfold probit_fam_g pnorm_log at heq
  have hlog : Real.log (pnorm (-(E / 2))) = Real.log (pnorm (-E)) := by linarith
  have hpn : pnorm (-(E / 2)) = pnorm (-E) := by
    have h3 := congrArg Real.exp hlog
    rwa [Real.exp_log (pnorm_pos _), Real.exp_log (pnorm_pos _)] at h3
  have hlt : pnorm (-E) < pnorm (-(E / 2)) := pnorm_lt_pnorm (by linarith)
  linarith

/-- C9 amended: for every mu, sigma > 0 and node table, the probit family
integral at rho = 0 equals 0.5 times (2/sqrt pi) times the Gauss-Hermite sum
with lambda = sigma exactly and with the nodes centered at the mode
`snva_mode0 mu sigma` returned by the solver, which differs from mu by the
epsilon-guarded correction sigma/2 * exp(-2 pi/eps); the claimed identity
with the mu-centered plain expectation holds only up to this correction. -/
theorem C9_amended_rho_zero_reduction (mu sigma : ℝ) (hs : 0 < sigma)
    (hd : HermiteData) :
    integral_atomic_comp probit_fam_g mu sigma 0 hd =
      1 / 2 * (2 / Real.sqrt Real.pi) *
        ((hd.x.zip hd.w).map (fun p =>
          p.2 * probit_fam_g (snva_mode0 mu sigma + Real.sqrt 2 * sigma * p.1) *
            Real.exp (p.1 * p.1 -
              (snva_mode0 mu sigma + Real.sqrt 2 * sigma * p.1 - mu) *
              (snva_mode0 mu sigma + Real.sqrt 2 * sigma * p.1 - mu) /
                2 / sigma / sigma))).sum :=
  comp_probit_rho_zero mu sigma hs hd

/-- Witness for C9 amended at (mu, sigma) = (0, 1) with the one-node rule. -/
theorem C9_amended_rho_zero_reduction_witness :
    integral_atomic_comp probit_fam_g 0 1 0 hermite1 =
      1 / 2 * (2 / Real.sqrt Real.pi) *
        ((hermite1.x.zip hermite1.w).map (fun p =>
          p.2 * probit_fam_g (snva_mode0 0 1 + Real.sqrt 2 * 1 * p.1) *
            Real.exp (p.1 * p.1 -
              (snva_mode0 0 1 + Real.sqrt 2 * 1 * p.1 - 0) *
              (snva_mode0 0 1 + Real.sqrt 2 * 1 * p.1 - 0) /
                2 / 1 / 1))).sum :=
  C9_amended_rho_zero_reduction 0 1 one_pos hermite1

/-- C10: for every (mu, sigma > 0, rho) and either integrand family, the
family-integral value computed by `integral_atomic_comp` is strictly
positive, because both integrands are pointwise positive and the quadrature
combines them with positive weights and positive exponential and Phi
factors. -/
theorem C10_family_integral_positive (mu sigma rho : ℝ) (hd : HermiteData)
    (hs : 0 < sigma) (hne : hd.x ≠ []) (hlen : hd.x.length = hd.w.length)
    (hw : ∀ w ∈ hd.w, 0 < w) :
    0 < integral_atomic_comp mlogit_fam_g_d mu sigma rho hd ∧
    0 < integral_atomic_comp probit_fam_g mu sigma rho hd :=
  ⟨integral_atomic_comp_pos mlogit_fam_g_d mlogit_fam_g_d_pos mu sigma rho hs
      hd hne hlen hw,
   integral_atomic_comp_pos probit_fam_g probit_fam_g_pos mu sigma rho hs
      hd hne hlen hw⟩

/-- Witness for C10 at (mu, sigma, rho) = (0, 1, 0) with the one-node rule. -/
theorem C10_family_integral_positive_witness :
    0 < integral_atomic_comp mlogit_fam_g_d 0 1 0 hermite1 ∧
    0 < integral_atomic_comp probit_fam_g 0 1 0 hermite1 :=
  C10_family_integral_positive 0 1 0 hermite1 one_pos
    (by simp [hermite1]) (by simp [hermite1])
    (by
      intro w hwm
      have hwe : w = Real.sqrt Real.pi := by
        simpa [hermite1] using hwm
      rw [hwe]
      exact Real.sqrt_pos.mpr Real.pi_pos)

end SurvTMB
